import Mathlib

/-!
Verification of the Cartesian → spherical-harmonic transformation engine of
`pysisyphus/wavefunction/cart2sph.py`.

The Python source computes with machine floats and `cmath`/`numpy` complex
numbers; the embedding below gives its ideal-arithmetic semantics over `ℚ`,
`ℝ` and `ℂ`:

* `scipy.special.factorial` / `scipy.special.binom` on the integer arguments
  used by the source become exact rational functions `fact` / `binom`
  (with the standard conventions: `factorial` of a negative integer is `0`,
  `binom n k = 0` for `k < 0` or `k > n`; negative first arguments to
  `binom` are never evaluated by the source on the paths modelled here);
* `cmath.sqrt` on a real argument becomes `csqrt` (principal branch);
* the complex power `(-1) ** e` (Python complex semantics,
  `exp(e·log(-1))`) becomes the Mathlib complex power `(-1 : ℂ) ^ (e : ℂ)`;
* Python's `assert` becomes an `Except Unit` error value;
* a `for`-loop accumulation over `range n` becomes a `Finset.range` sum;
* a `numpy` 2-d array becomes an `NDMatrix`: explicit row/column counts
  together with an entry function.

Python's `/` on integers is exact division in `ℚ`/`ℝ`; `floor(lmm / 2)` and
the `j % 1 != 0` integrality test become integer floor division (`Int`'s `/`
and `% 2` parity, which agree with Python's floor conventions).
-/

namespace Cart2Sph

open Finset

noncomputable section

/-- Embeds `scipy.special.factorial` on an integer argument: `n!` for `n ≥ 0`,
and `0` for negative `n`. -/
def fact (n : ℤ) : ℚ :=
  if 0 ≤ n then (Nat.factorial n.toNat : ℚ) else 0

/-- Embeds `scipy.special.binom` on the integer arguments used by the source:
the standard binomial coefficient, `0` when `k < 0` or `k > n`. -/
def binom (n k : ℤ) : ℚ :=
  if 0 ≤ k ∧ k ≤ n then (Nat.choose n.toNat k.toNat : ℚ) else 0

/-- Embeds `cmath.sqrt` restricted to real arguments (principal branch):
`√x` for `x ≥ 0` and `i·√(-x)` for `x < 0`. -/
def csqrt (x : ℝ) : ℂ :=
  if 0 ≤ x then (Real.sqrt x : ℂ) else Complex.I * Real.sqrt (-x)

/-- Source function `sph_norm(n)`: Eq. (8) of Schlegel/Frisch 1995 without the orbital
exponent, `1 / sqrt((2n+2)!·π^0.5 / (2^(2n+3)·(n+1)!))`. -/
def sph_norm (n : ℤ) : ℂ :=
  1 / csqrt ((fact (2 * n + 2) : ℝ) * Real.pi ^ (0.5 : ℝ) /
      ((2 : ℝ) ^ (2 * n + 3) * (fact (n + 1) : ℝ)))

/-- Source function `cart_norm(lx, ly, lz)`: Eq. (9) of Schlegel/Frisch 1995 without the
orbital exponent. -/
def cart_norm (lx ly lz : ℤ) : ℂ :=
  1 / csqrt ((fact (2 * lx) * fact (2 * ly) * fact (2 * lz) : ℝ) *
      Real.pi ^ (1.5 : ℝ) /
      ((2 : ℝ) ^ (2 * (lx + ly + lz)) * (fact lx * fact ly * fact lz : ℝ)))

/-- Source function `norm`: `sph_norm(lx+ly+lz) / cart_norm(lx, ly, lz)`. -/
def norm (lx ly lz : ℤ) : ℂ :=
  sph_norm (lx + ly + lz) / cart_norm lx ly lz

/-- The outer-loop factor `i_fact` of `cart2sph_coeff`:
`binom(l,i)·binom(i,j)·(-1)^i·(2l-2i)! / (l-|m|-2i)!`. -/
def i_fact (l j lmm : ℤ) (i : ℕ) : ℚ :=
  binom l i * binom i j * (-1) ^ i * fact (2 * l - 2 * i) / fact (lmm - 2 * i)

/-- The inner sum `k_sum` of `cart2sph_coeff`: for `k = 0..j`,
`(-1)^(s·(|m|-lx+2k)/2) · binom(j,k) · binom(|m|, lx-2k)`, with the
half-integer power evaluated by the complex power function (`am` stands
for `abs(m)`, `s` for the code's `sign` variable). -/
def k_sum (lx am s j : ℤ) : ℂ :=
  ∑ k ∈ Finset.range (j + 1).toNat,
    (-1 : ℂ) ^ (((s * (am - lx + 2 * (k : ℤ)) : ℤ) : ℂ) / 2) *
      ((binom j (k : ℤ) : ℚ) : ℂ) * ((binom am (lx - 2 * (k : ℤ)) : ℚ) : ℂ)

/-- Body of `cart2sph_coeff` after the `assert` (the source function with
its contract check split off into `cart2sph_coeff`): the early selection
rule return, the double sum, the square-root prefactor, the `1/(2^l·l!)`
factor and the optional division by `norm`. -/
def cart2sph_coeff_core (lx ly lz m : ℤ) (normalized : Bool) : ℂ :=
  let l := lx + ly + lz
  if (lx + ly - |m|) % 2 ≠ 0 then 0
  else
    let j := (lx + ly - |m|) / 2
    let lmm := l - |m|
    let s : ℤ := if 0 ≤ m then 1 else -1
    let coeff : ℂ :=
      ∑ i ∈ Finset.range (lmm / 2 + 1).toNat,
        ((i_fact l j lmm i : ℚ) : ℂ) * k_sum lx |m| s j
    let coeff2 := coeff * csqrt
      ((fact (2 * lx) * fact (2 * ly) * fact (2 * lz) * fact l * fact lmm /
        (fact (2 * l) * fact lx * fact ly * fact lz * fact (l + |m|)) : ℚ) : ℝ)
    let coeff3 := coeff2 * (1 / ((2 : ℂ) ^ l * ((fact l : ℚ) : ℂ)))
    if normalized then coeff3 else coeff3 / norm lx ly lz

/-- Source function `cart2sph_coeff(lx, ly, lz, m, normalized)`: the `assert -l <= m <= l`
is modelled as an `Except.error`; otherwise the body
`cart2sph_coeff_core` runs. -/
def cart2sph_coeff (lx ly lz m : ℤ) (normalized : Bool) : Except Unit ℂ :=
  if -(lx + ly + lz) ≤ m ∧ m ≤ lx + ly + lz then
    .ok (cart2sph_coeff_core lx ly lz m normalized)
  else .error ()

/-- Modelled from the spec: `canonical_order` is imported from
`pysisyphus.wavefunction.helpers`, which is not part of the sources at
hand.  Per §6 of the specification it returns, for a given `l`, the
ordered sequence of Cartesian exponent triples `(lx, ly, lz)` with
`lx+ly+lz = l`, lexicographic by decreasing `lx` then decreasing `ly`. -/
def canonical_order (l : ℕ) : List (ℕ × ℕ × ℕ) :=
  ((List.range (l + 1)).reverse.map (fun lx =>
    (List.range (l - lx + 1)).reverse.map (fun ly => (lx, ly, l - lx - ly)))).flatten

/-- A dense `numpy` 2-d array: explicit shape plus an entry function
(entries outside the shape are `0`). -/
structure NDMatrix where
  rows : ℕ
  cols : ℕ
  entry : ℕ → ℕ → ℂ

/-- Embeds the `numpy` transpose: swaps the two axes. -/
def NDMatrix.T (M : NDMatrix) : NDMatrix :=
  ⟨M.cols, M.rows, fun r c => M.entry c r⟩

/-- Embeds `np.real`, keeping the value embedded in `ℂ`. -/
def NDMatrix.realPart (M : NDMatrix) : NDMatrix :=
  ⟨M.rows, M.cols, fun r c => ((M.entry r c).re : ℝ)⟩

/-- The condition of the source's `assert real == ~np.iscomplex(C).all()`
for `real = True`: `np.iscomplex` is an exact elementwise `imag != 0`
test, so the asserted condition is "not every entry has nonzero
imaginary part". -/
def iscomplex_not_all (M : NDMatrix) : Prop :=
  ¬ ∀ r < M.rows, ∀ c < M.cols, (M.entry r c).im ≠ 0

/-- The per-entry computation of the `m`-loop in `cart2sph_coeffs_for`:
the raw coefficient, combined for `real` and `m ≠ 0` with the `-m`
coefficient as `(coeff + sign·coeff_minus) / sqrt(sign·2)` where
`sign = 1 if m < 0 else -1`. -/
def combined_coeff (lx ly lz m : ℤ) (real normalized : Bool) : ℂ :=
  let coeff := cart2sph_coeff_core lx ly lz m normalized
  if real ∧ m ≠ 0 then
    let coeff_minus := cart2sph_coeff_core lx ly lz (-m) normalized
    let sign : ℤ := if m < 0 then 1 else -1
    (coeff + (sign : ℂ) * coeff_minus) / csqrt ((sign : ℝ) * 2)
  else coeff

/-- The complex matrix `C = np.array(all_coeffs)` built by
`cart2sph_coeffs_for` before the realness assertion: rows run over
`canonical_order l`, columns over `m = -l..l`. -/
def C_pre (l : ℕ) (real normalized : Bool) : NDMatrix :=
  ⟨(canonical_order l).length, 2 * l + 1,
   fun r c =>
     if r < (canonical_order l).length ∧ c < 2 * l + 1 then
       let t := (canonical_order l).getD r (0, 0, 0)
       combined_coeff t.1 t.2.1 t.2.2 ((c : ℤ) - l) real normalized
     else 0⟩

open scoped Classical in
/-- Source function `cart2sph_coeffs_for(l, real, normalized)`: build `C`, when `real`
assert `real == ~np.iscomplex(C).all()` (an `Except.error` models the
`AssertionError`) and take `np.real(C)`, and return the transpose. -/
def cart2sph_coeffs_for (l : ℕ) (real normalized : Bool) : Except Unit NDMatrix :=
  let C := C_pre l real normalized
  if real then
    if iscomplex_not_all C then .ok C.realPart.T else .error ()
  else .ok C.T

/-- The `zero_small` in-place update of `cart2sph_coeffs`: every entry
with `np.abs` at most `zero_thresh` is set to exactly `0`. -/
def zeroSmall (zero_thresh : ℝ) (M : NDMatrix) : NDMatrix :=
  ⟨M.rows, M.cols,
   fun r c => if Complex.abs (M.entry r c) ≤ zero_thresh then 0 else M.entry r c⟩

open scoped Classical in
/-- Source function `cart2sph_coeffs(l_max, zero_small, zero_thresh, real, normalized)`:
the dictionary `{l: cart2sph_coeffs_for(l, ...) for l in range(l_max + 1)}`
(an exception from any entry aborts the whole call), with the
`zero_small` thresholding applied to every value. -/
def cart2sph_coeffs (l_max : ℕ) (zero_small : Bool) (zero_thresh : ℝ)
    (real normalized : Bool) : Except Unit (ℕ → Option NDMatrix) :=
  if ∀ l ≤ l_max, ∃ M, cart2sph_coeffs_for l real normalized = .ok M then
    .ok (fun l =>
      if l ≤ l_max then
        (cart2sph_coeffs_for l real normalized).toOption.map
          (fun M => if zero_small then zeroSmall zero_thresh M else M)
      else none)
  else .error ()

/-- The closed-form double sum of the specification (§4.2, and claim C1),
written from the spec's words: sum over `i = 0..floor((l-|m|)/2)` of
`C(l,i)·C(i,j)·(-1)^i·(2l-2i)!/(l-|m|-2i)!` times the inner sum over
`k = 0..j` of `exp(iπ·(sign(m)·(|m|-lx+2k)/2))·C(j,k)·C(|m|, lx-2k)`
(half-integer exponents via complex exponentiation), the whole multiplied
by `sqrt((2lx)!(2ly)!(2lz)!·l!·(l-|m|)! / ((2l)!·lx!·ly!·lz!·(l+|m|)!))`
and divided by `2^l·l!`; out-of-range binomials contribute zero. -/
def spec_coeff (lx ly lz : ℕ) (m : ℤ) : ℂ :=
  let l : ℤ := (lx : ℤ) + ly + lz
  let j : ℤ := ((lx : ℤ) + ly - |m|) / 2
  (∑ i ∈ Finset.range ((l - |m|) / 2 + 1).toNat,
      ((binom l i * binom i j * (-1) ^ i * fact (2 * l - 2 * i) /
          fact (l - |m| - 2 * i) : ℚ) : ℂ) *
        ∑ k ∈ Finset.range (j + 1).toNat,
          Complex.exp (Real.pi * Complex.I *
              (((if 0 ≤ m then 1 else -1) * (|m| - (lx : ℤ) + 2 * (k : ℤ)) : ℤ) : ℂ) / 2) *
            ((binom j (k : ℤ) : ℚ) : ℂ) *
            ((binom (|m|) ((lx : ℤ) - 2 * (k : ℤ)) : ℚ) : ℂ)) *
    csqrt ((fact (2 * (lx : ℤ)) * fact (2 * (ly : ℤ)) * fact (2 * (lz : ℤ)) *
        fact l * fact (l - |m|) /
        (fact (2 * l) * fact (lx : ℤ) * fact (ly : ℤ) * fact (lz : ℤ) *
          fact (l + |m|)) : ℚ) : ℝ) /
    ((2 : ℂ) ^ l * ((fact l : ℚ) : ℂ))

/-- The specification's real-combination formula (§4.3, claim C2):
`(coeff(m) + sign·coeff(-m)) / sqrt(sign·2)` with `sign = +1` if `m < 0`
else `-1` (complex square root), and the raw coefficient unchanged for
`m = 0`. -/
def spec_combined (cm cmm : ℂ) (m : ℤ) : ℂ :=
  if m = 0 then cm
  else (cm + ((if m < 0 then 1 else -1 : ℤ) : ℂ) * cmm) /
    csqrt (((if m < 0 then 1 else -1 : ℤ) : ℝ) * 2)

end

/-! ### Arithmetic facts about the embedded primitives -/

lemma fact_nonneg (n : ℤ) : 0 ≤ fact n := by
  unfold fact; split
  · positivity
  · exact le_refl 0

lemma fact_pos {n : ℤ} (h : 0 ≤ n) : 0 < fact n := by
  unfold fact; rw [if_pos h]
  exact_mod_cast Nat.factorial_pos _

lemma binom_nonneg (n k : ℤ) : 0 ≤ binom n k := by
  unfold binom; split
  · positivity
  · exact le_refl 0

lemma csqrt_of_nonneg {x : ℝ} (h : 0 ≤ x) : csqrt x = ((Real.sqrt x : ℝ) : ℂ) :=
  if_pos h

lemma conj_csqrt_of_nonneg {x : ℝ} (h : 0 ≤ x) :
    (starRingEnd ℂ) (csqrt x) = csqrt x := by
  rw [csqrt_of_nonneg h, Complex.conj_ofReal]

lemma exp_pi_div_two_mul_I : Complex.exp ((Real.pi : ℂ) / 2 * Complex.I) = Complex.I := by
  have harg : ((Real.pi : ℂ) / 2) = ((Real.pi / 2 : ℝ) : ℂ) := by push_cast; ring
  rw [Complex.exp_mul_I, harg, ← Complex.ofReal_cos, ← Complex.ofReal_sin,
    Real.cos_pi_div_two, Real.sin_pi_div_two, Complex.ofReal_zero, Complex.ofReal_one]
  ring

/-- Python's complex power `(-1) ** w` is `exp(iπ·w)`. -/
lemma neg_one_cpow (w : ℂ) : (-1 : ℂ) ^ w = Complex.exp ((Real.pi : ℂ) * Complex.I * w) := by
  rw [Complex.cpow_def_of_ne_zero (by norm_num), Complex.log_neg_one]

/-- For an integer `n`, `(-1) ** (n / 2) = i ^ n` (complex semantics). -/
lemma neg_one_cpow_int_half (n : ℤ) : (-1 : ℂ) ^ ((n : ℂ) / 2) = Complex.I ^ n := by
  have harg : (Real.pi : ℂ) * Complex.I * ((n : ℂ) / 2) =
      (n : ℂ) * ((Real.pi : ℂ) / 2 * Complex.I) := by ring
  rw [neg_one_cpow, harg, Complex.exp_int_mul, exp_pi_div_two_mul_I]

lemma conj_I_zpow (n : ℤ) : (starRingEnd ℂ) (Complex.I ^ n) = Complex.I ^ (-n) := by
  rw [map_zpow₀, Complex.conj_I, ← Complex.inv_I, inv_zpow, ← zpow_neg]

/-! ### The inner sum `k_sum` -/

lemma k_sum_eq_I_zpow (lx am s j : ℤ) :
    k_sum lx am s j = ∑ k ∈ Finset.range (j + 1).toNat,
      Complex.I ^ (s * (am - lx + 2 * (k : ℤ))) *
        ((binom j (k : ℤ) : ℚ) : ℂ) * ((binom am (lx - 2 * (k : ℤ)) : ℚ) : ℂ) := by
  unfold k_sum
  exact Finset.sum_congr rfl fun k _ => by rw [neg_one_cpow_int_half]

lemma conj_k_sum (lx am s j : ℤ) :
    (starRingEnd ℂ) (k_sum lx am s j) = k_sum lx am (-s) j := by
  rw [k_sum_eq_I_zpow, k_sum_eq_I_zpow, map_sum]
  refine Finset.sum_congr rfl fun k _ => ?_
  rw [map_mul, map_mul, map_ratCast, map_ratCast, conj_I_zpow, ← neg_mul]

lemma k_sum_neg_of_am_zero (lx j : ℤ) : k_sum lx 0 (-1) j = k_sum lx 0 1 j := by
  rw [k_sum_eq_I_zpow, k_sum_eq_I_zpow]
  refine Finset.sum_congr rfl fun k _ => ?_
  by_cases h : lx - 2 * (k : ℤ) = 0
  · have h0 : (0 : ℤ) - lx + 2 * (k : ℤ) = 0 := by omega
    rw [h0, mul_zero, mul_zero]
  · have hb : binom 0 (lx - 2 * (k : ℤ)) = 0 := by
      unfold binom
      exact if_neg fun hc => h (le_antisymm hc.2 hc.1)
    rw [hb]
    push_cast
    ring

/-! ### Realness of the normalization constants -/

lemma factR_nonneg (n : ℤ) : (0 : ℝ) ≤ ((fact n : ℚ) : ℝ) := by
  exact_mod_cast fact_nonneg n

lemma sph_norm_arg_nonneg (n : ℤ) :
    0 ≤ (fact (2 * n + 2) : ℝ) * Real.pi ^ (0.5 : ℝ) /
      ((2 : ℝ) ^ (2 * n + 3) * (fact (n + 1) : ℝ)) := by
  apply div_nonneg
  · exact mul_nonneg (factR_nonneg _) (Real.rpow_pos_of_pos Real.pi_pos _).le
  · exact mul_nonneg (zpow_pos (by norm_num) _).le (factR_nonneg _)

lemma cart_norm_arg_nonneg (lx ly lz : ℤ) :
    0 ≤ (fact (2 * lx) * fact (2 * ly) * fact (2 * lz) : ℝ) *
      Real.pi ^ (1.5 : ℝ) /
      ((2 : ℝ) ^ (2 * (lx + ly + lz)) * (fact lx * fact ly * fact lz : ℝ)) := by
  apply div_nonneg
  · exact mul_nonneg
      (mul_nonneg (mul_nonneg (factR_nonneg _) (factR_nonneg _)) (factR_nonneg _))
      (Real.rpow_pos_of_pos Real.pi_pos _).le
  · exact mul_nonneg (zpow_pos (by norm_num) _).le
      (mul_nonneg (mul_nonneg (factR_nonneg _) (factR_nonneg _)) (factR_nonneg _))

lemma conj_sph_norm (n : ℤ) : (starRingEnd ℂ) (sph_norm n) = sph_norm n := by
  unfold sph_norm
  rw [map_div₀, map_one, conj_csqrt_of_nonneg (sph_norm_arg_nonneg n)]

lemma conj_cart_norm (lx ly lz : ℤ) :
    (starRingEnd ℂ) (cart_norm lx ly lz) = cart_norm lx ly lz := by
  unfold cart_norm
  rw [map_div₀, map_one, conj_csqrt_of_nonneg (cart_norm_arg_nonneg lx ly lz)]

lemma conj_norm (lx ly lz : ℤ) : (starRingEnd ℂ) (norm lx ly lz) = norm lx ly lz := by
  unfold norm
  rw [map_div₀, conj_sph_norm, conj_cart_norm]

/-! ### Conjugation symmetry of the raw coefficient: `coeff(-m) = conj (coeff(m))` -/

lemma sqrt_prefactor_nonneg (a b c d e f g h i j : ℤ) :
    0 ≤ (fact a * fact b * fact c * fact d * fact e /
      (fact f * fact g * fact h * fact i * fact j) : ℚ) := by
  apply div_nonneg
  · exact mul_nonneg (mul_nonneg (mul_nonneg (mul_nonneg (fact_nonneg a)
      (fact_nonneg b)) (fact_nonneg c)) (fact_nonneg d)) (fact_nonneg e)
  · exact mul_nonneg (mul_nonneg (mul_nonneg (mul_nonneg (fact_nonneg f)
      (fact_nonneg g)) (fact_nonneg h)) (fact_nonneg i)) (fact_nonneg j)

lemma core_conj (lx ly lz m : ℤ) (b : Bool) :
    cart2sph_coeff_core lx ly lz (-m) b
      = (starRingEnd ℂ) (cart2sph_coeff_core lx ly lz m b) := by
  have habs : |(-m)| = |m| := abs_neg m
  simp only [cart2sph_coeff_core, habs]
  by_cases hpar : (lx + ly - |m|) % 2 ≠ 0
  · rw [if_pos hpar, if_pos hpar, map_zero]
  · rw [if_neg hpar, if_neg hpar]
    have hks : k_sum lx |m| (if 0 ≤ -m then 1 else -1) ((lx + ly - |m|) / 2)
        = (starRingEnd ℂ) (k_sum lx |m| (if 0 ≤ m then 1 else -1) ((lx + ly - |m|) / 2)) := by
      rw [conj_k_sum]
      rcases lt_trichotomy m 0 with hm | hm | hm
      · rw [if_pos (by omega), if_neg (by omega)]
        norm_num
      · subst hm
        simp only [neg_zero, abs_zero]
        rw [if_pos le_rfl]
        exact (k_sum_neg_of_am_zero lx _).symm
      · rw [if_neg (by omega), if_pos (by omega)]
    have hSum : ∑ i ∈ Finset.range (((lx + ly + lz - |m|) / 2 + 1)).toNat,
          ((i_fact (lx + ly + lz) ((lx + ly - |m|) / 2) (lx + ly + lz - |m|) i : ℚ) : ℂ) *
            k_sum lx |m| (if 0 ≤ -m then 1 else -1) ((lx + ly - |m|) / 2)
        = (starRingEnd ℂ) (∑ i ∈ Finset.range (((lx + ly + lz - |m|) / 2 + 1)).toNat,
          ((i_fact (lx + ly + lz) ((lx + ly - |m|) / 2) (lx + ly + lz - |m|) i : ℚ) : ℂ) *
            k_sum lx |m| (if 0 ≤ m then 1 else -1) ((lx + ly - |m|) / 2)) := by
      rw [map_sum]
      exact Finset.sum_congr rfl fun i _ => by rw [map_mul, map_ratCast, ← hks]
    have hP : (0 : ℝ) ≤ ((fact (2 * lx) * fact (2 * ly) * fact (2 * lz) *
        fact (lx + ly + lz) * fact (lx + ly + lz - |m|) /
        (fact (2 * (lx + ly + lz)) * fact lx * fact ly * fact lz *
          fact (lx + ly + lz + |m|)) : ℚ) : ℝ) := by
      exact_mod_cast sqrt_prefactor_nonneg _ _ _ _ _ _ _ _ _ _
    have hinv : (starRingEnd ℂ)
          (1 / ((2 : ℂ) ^ (lx + ly + lz) * ((fact (lx + ly + lz) : ℚ) : ℂ)))
        = 1 / ((2 : ℂ) ^ (lx + ly + lz) * ((fact (lx + ly + lz) : ℚ) : ℂ)) := by
      rw [map_div₀, map_one, map_mul, map_zpow₀, map_ratCast, map_ofNat]
    cases b
    · have hif : ∀ x y : ℂ, (if (false = true) then x else y) = y := fun x y => by simp
      rw [hif, hif, map_div₀, map_mul, map_mul,
        ← hSum, conj_csqrt_of_nonneg hP, hinv, conj_norm]
    · have hif : ∀ x y : ℂ, (if (true = true) then x else y) = x := fun x y => by simp
      rw [hif, hif, map_mul, map_mul,
        ← hSum, conj_csqrt_of_nonneg hP, hinv]

/-! ### Every real-combined entry is exactly real -/

lemma ofReal_div_ofReal_im (a b : ℝ) : (((a : ℂ)) / ((b : ℂ))).im = 0 := by
  rw [← Complex.ofReal_div]
  exact Complex.ofReal_im _

lemma combined_coeff_im_eq_zero (lx ly lz m : ℤ) (b : Bool) :
    (combined_coeff lx ly lz m true b).im = 0 := by
  unfold combined_coeff
  by_cases hm : m = 0
  · rw [if_neg (by simp [hm])]
    have h := core_conj lx ly lz 0 b
    rw [neg_zero] at h
    have h2 := congrArg Complex.im h.symm
    rw [Complex.conj_im] at h2
    subst hm
    linarith
  · rw [if_pos ⟨rfl, hm⟩, core_conj lx ly lz m b]
    set z := cart2sph_coeff_core lx ly lz m b with hz
    rcases lt_or_ge m 0 with hlt | hge
    · rw [if_pos hlt]
      dsimp only
      have harg : (((1 : ℤ) : ℝ) * 2) = (2 : ℝ) := by norm_num
      rw [harg, csqrt_of_nonneg (by norm_num : (0:ℝ) ≤ 2)]
      have : z + ((1 : ℤ) : ℂ) * (starRingEnd ℂ) z = ((2 * z.re : ℝ) : ℂ) := by
        rw [Int.cast_one, one_mul, Complex.add_conj]
      rw [this]
      exact ofReal_div_ofReal_im _ _
    · rw [if_neg (by omega)]
      dsimp only
      have harg : (((-1 : ℤ) : ℝ) * 2) = (-2 : ℝ) := by norm_num
      rw [harg]
      have hcs : csqrt (-2) = Complex.I * (Real.sqrt 2 : ℂ) := by
        unfold csqrt
        rw [if_neg (by norm_num)]
        norm_num
      have hnum : z + ((-1 : ℤ) : ℂ) * (starRingEnd ℂ) z = ((2 * z.im : ℝ) : ℂ) * Complex.I := by
        push_cast
        rw [neg_one_mul, ← sub_eq_add_neg, Complex.sub_conj]
        push_cast
        ring
      rw [hcs, hnum, mul_comm Complex.I ((Real.sqrt 2 : ℝ) : ℂ),
        mul_div_mul_right _ _ Complex.I_ne_zero]
      exact ofReal_div_ofReal_im _ _

lemma C_pre_im_eq_zero (l : ℕ) (b : Bool) (r c : ℕ) :
    ((C_pre l true b).entry r c).im = 0 := by
  unfold C_pre
  dsimp only
  split
  · exact combined_coeff_im_eq_zero _ _ _ _ b
  · exact Complex.zero_im

/-! ### Length of the canonical order -/

lemma list_range_map_sum (n : ℕ) (f : ℕ → ℕ) :
    ((List.range n).map f).sum = ∑ i ∈ Finset.range n, f i := by
  induction n with
  | zero => simp
  | succ k ih =>
    rw [List.range_succ, List.map_append, List.sum_append, Finset.sum_range_succ, ih]
    simp

lemma canonical_order_length (l : ℕ) :
    (canonical_order l).length = (l + 1) * (l + 2) / 2 := by
  unfold canonical_order
  rw [List.length_flatten, List.map_map, List.map_reverse, List.sum_reverse]
  have hcomp : (List.length ∘ fun lx =>
      (List.range (l - lx + 1)).reverse.map (fun ly => (lx, ly, l - lx - ly)))
      = fun lx => l - lx + 1 := by
    funext lx
    simp
  rw [hcomp, list_range_map_sum]
  have hrefl : ∑ i ∈ Finset.range (l + 1), (l - i + 1) =
      ∑ i ∈ Finset.range (l + 1), (i + 1) := by
    have h := Finset.sum_range_reflect (fun i => i + 1) (l + 1)
    exact Eq.trans (Finset.sum_congr rfl fun i hi => rfl) h
  rw [hrefl]
  have hshift : ∑ i ∈ Finset.range (l + 1), (i + 1) = ∑ i ∈ Finset.range (l + 2), i := by
    rw [Finset.sum_range_succ' (fun i => i) (l + 1)]
    simp
  rw [hshift, Finset.sum_range_id]
  show (l + 2) * (l + 1) / 2 = (l + 1) * (l + 2) / 2
  rw [Nat.mul_comm]

lemma canonical_order_length_pos (l : ℕ) : 0 < (canonical_order l).length := by
  rw [canonical_order_length]
  have h2 : 2 ≤ (l + 1) * (l + 2) := by nlinarith
  omega

/-! ### Positivity of the normalization constants -/

lemma one_div_csqrt_eq {x : ℝ} (hx : 0 ≤ x) :
    1 / csqrt x = ((1 / Real.sqrt x : ℝ) : ℂ) := by
  rw [csqrt_of_nonneg hx, Complex.ofReal_div, Complex.ofReal_one]

lemma sph_norm_eq_pos_real {n : ℤ} (hn : 0 ≤ n) :
    ∃ r : ℝ, 0 < r ∧ sph_norm n = (r : ℂ) := by
  have harg : 0 < (fact (2 * n + 2) : ℝ) * Real.pi ^ (0.5 : ℝ) /
      ((2 : ℝ) ^ (2 * n + 3) * (fact (n + 1) : ℝ)) := by
    apply div_pos
    · exact mul_pos (by exact_mod_cast fact_pos (by omega))
        (Real.rpow_pos_of_pos Real.pi_pos _)
    · exact mul_pos (zpow_pos (by norm_num) _) (by exact_mod_cast fact_pos (by omega))
  refine ⟨1 / Real.sqrt _, by positivity, ?_⟩
  unfold sph_norm
  exact one_div_csqrt_eq harg.le

lemma cart_norm_eq_pos_real {lx ly lz : ℤ} (hlx : 0 ≤ lx) (hly : 0 ≤ ly)
    (hlz : 0 ≤ lz) : ∃ r : ℝ, 0 < r ∧ cart_norm lx ly lz = (r : ℂ) := by
  have harg : 0 < (fact (2 * lx) * fact (2 * ly) * fact (2 * lz) : ℝ) *
      Real.pi ^ (1.5 : ℝ) /
      ((2 : ℝ) ^ (2 * (lx + ly + lz)) * (fact lx * fact ly * fact lz : ℝ)) := by
    have f1 : (0 : ℝ) < (fact (2 * lx) : ℝ) := by exact_mod_cast fact_pos (by omega)
    have f2 : (0 : ℝ) < (fact (2 * ly) : ℝ) := by exact_mod_cast fact_pos (by omega)
    have f3 : (0 : ℝ) < (fact (2 * lz) : ℝ) := by exact_mod_cast fact_pos (by omega)
    have f4 : (0 : ℝ) < (fact lx : ℝ) := by exact_mod_cast fact_pos hlx
    have f5 : (0 : ℝ) < (fact ly : ℝ) := by exact_mod_cast fact_pos hly
    have f6 : (0 : ℝ) < (fact lz : ℝ) := by exact_mod_cast fact_pos hlz
    apply div_pos
    · exact mul_pos (mul_pos (mul_pos f1 f2) f3) (Real.rpow_pos_of_pos Real.pi_pos _)
    · exact mul_pos (zpow_pos (by norm_num) _) (mul_pos (mul_pos f4 f5) f6)
  refine ⟨1 / Real.sqrt _, by positivity, ?_⟩
  unfold cart_norm
  exact one_div_csqrt_eq harg.le

/-! ### Claim theorems -/

/-- C3: for `lx, ly, lz ≥ 0` and `|m| ≤ lx+ly+lz`, when `lx+ly-|m|` is odd
(`j` not an integer) `cart2sph_coeff` returns exactly `0`, for both
`normalized = true` and `normalized = false`. -/
theorem cart2sph_coeff_selection_rule (lx ly lz : ℕ) (m : ℤ) (normalized : Bool)
    (hm : |m| ≤ (lx : ℤ) + ly + lz) (hodd : Odd ((lx : ℤ) + ly - |m|)) :
    cart2sph_coeff lx ly lz m normalized = .ok 0 := by
  obtain ⟨h1, h2⟩ := abs_le.mp hm
  have h3 : ((lx : ℤ) + ly - |m|) % 2 = 1 := Int.odd_iff.mp hodd
  unfold cart2sph_coeff
  rw [if_pos ⟨h1, h2⟩]
  unfold cart2sph_coeff_core
  rw [if_pos (by omega : ((lx : ℤ) + ly - |m|) % 2 ≠ 0)]

/-- Witness for C3 at `(lx, ly, lz, m) = (1, 0, 0, 0)`. -/
theorem cart2sph_coeff_selection_rule_witness :
    |(0 : ℤ)| ≤ ((1 : ℕ) : ℤ) + ((0 : ℕ) : ℤ) + ((0 : ℕ) : ℤ) ∧
      Odd (((1 : ℕ) : ℤ) + ((0 : ℕ) : ℤ) - |(0 : ℤ)|) ∧
      cart2sph_coeff 1 0 0 0 true = .ok 0 :=
  ⟨by norm_num, by norm_num,
    cart2sph_coeff_selection_rule 1 0 0 0 true (by norm_num) (by norm_num)⟩

/-- C6: for every valid input, the unnormalized coefficient is the
normalized one divided by `norm(lx, ly, lz)`. -/
theorem cart2sph_coeff_unnormalized_eq (lx ly lz : ℕ) (m : ℤ)
    (hm : |m| ≤ (lx : ℤ) + ly + lz) :
    ∃ c, cart2sph_coeff lx ly lz m true = .ok c ∧
      cart2sph_coeff lx ly lz m false = .ok (c / norm lx ly lz) := by
  obtain ⟨h1, h2⟩ := abs_le.mp hm
  refine ⟨cart2sph_coeff_core lx ly lz m true, ?_, ?_⟩
  · unfold cart2sph_coeff
    rw [if_pos ⟨h1, h2⟩]
  · unfold cart2sph_coeff
    rw [if_pos ⟨h1, h2⟩]
    have hcore : cart2sph_coeff_core lx ly lz m false
        = cart2sph_coeff_core lx ly lz m true / norm lx ly lz := by
      unfold cart2sph_coeff_core
      by_cases hpar : ((lx : ℤ) + ly - |m|) % 2 ≠ 0
      · rw [if_pos hpar, if_pos hpar, zero_div]
      · rw [if_neg hpar, if_neg hpar]
        dsimp only
        have hif1 : ∀ x y : ℂ, (if (false = true) then x else y) = y :=
          fun x y => by simp
        have hif2 : ∀ x y : ℂ, (if (true = true) then x else y) = x :=
          fun x y => by simp
        rw [hif1, hif2]
    rw [hcore]

/-- Witness for C6 at `(lx, ly, lz, m) = (0, 0, 0, 0)`. -/
theorem cart2sph_coeff_unnormalized_eq_witness :
    |(0 : ℤ)| ≤ ((0 : ℕ) : ℤ) + ((0 : ℕ) : ℤ) + ((0 : ℕ) : ℤ) ∧
      ∃ c, cart2sph_coeff 0 0 0 0 true = .ok c ∧
        cart2sph_coeff 0 0 0 0 false = .ok (c / norm 0 0 0) :=
  ⟨by norm_num, cart2sph_coeff_unnormalized_eq 0 0 0 0 (by norm_num)⟩

/-- C7 counterexample: a negative Cartesian exponent is not rejected:
`cart2sph_coeff(-1, 2, 0, 0)` passes the `assert` (since
`l = -1+2+0 = 1` and `-1 ≤ 0 ≤ 1`) and returns `0` through the
selection-rule path instead of failing. -/
theorem cart2sph_coeff_negative_lx_no_error :
    cart2sph_coeff (-1) 2 0 0 true = .ok 0 := by
  unfold cart2sph_coeff
  rw [if_pos (by norm_num)]
  unfold cart2sph_coeff_core
  rw [if_pos (by decide : ((-1 : ℤ) + 2 - |(0 : ℤ)|) % 2 ≠ 0)]

/-- C7 (amended): `cart2sph_coeff` raises exactly when `m` lies outside
`[-(lx+ly+lz), lx+ly+lz]`; negative `lx`, `ly`, `lz` are not themselves
checked. -/
theorem cart2sph_coeff_error_iff (lx ly lz m : ℤ) (normalized : Bool) :
    cart2sph_coeff lx ly lz m normalized = .error () ↔
      ¬(-(lx + ly + lz) ≤ m ∧ m ≤ lx + ly + lz) := by
  unfold cart2sph_coeff
  split_ifs with h
  · exact iff_of_false (by simp) (not_not_intro h)
  · exact iff_of_true rfl h

/-- C9: the single normalized coefficient for `l = 0` is exactly `1`. -/
theorem cart2sph_coeff_l0_eq_one : cart2sph_coeff 0 0 0 0 true = .ok 1 := by
  unfold cart2sph_coeff
  rw [if_pos (by norm_num)]
  have hcore : cart2sph_coeff_core 0 0 0 0 true = 1 := by
    unfold cart2sph_coeff_core
    rw [if_neg (by decide : ¬ ((0 : ℤ) + 0 - |(0 : ℤ)|) % 2 ≠ 0)]
    dsimp only
    norm_num [i_fact, k_sum, fact, binom, csqrt, Finset.sum_range_one,
      Complex.cpow_zero, Real.sqrt_one]
  rw [hcore]

/-- C10: for nonnegative integer inputs, `sph_norm`, `cart_norm` and
`norm` all have exactly zero imaginary part and strictly positive real
part (they are computed through the complex square root but are real). -/
theorem norms_real_and_positive (n lx ly lz : ℤ) (hn : 0 ≤ n) (hlx : 0 ≤ lx)
    (hly : 0 ≤ ly) (hlz : 0 ≤ lz) :
    ((sph_norm n).im = 0 ∧ 0 < (sph_norm n).re) ∧
      ((cart_norm lx ly lz).im = 0 ∧ 0 < (cart_norm lx ly lz).re) ∧
      ((norm lx ly lz).im = 0 ∧ 0 < (norm lx ly lz).re) := by
  obtain ⟨r1, hr1, he1⟩ := sph_norm_eq_pos_real hn
  obtain ⟨r2, hr2, he2⟩ := cart_norm_eq_pos_real hlx hly hlz
  obtain ⟨r0, hr0, he0⟩ := sph_norm_eq_pos_real
    (show (0 : ℤ) ≤ lx + ly + lz by omega)
  refine ⟨⟨?_, ?_⟩, ⟨?_, ?_⟩, ?_, ?_⟩
  · rw [he1, Complex.ofReal_im]
  · rw [he1, Complex.ofReal_re]; exact hr1
  · rw [he2, Complex.ofReal_im]
  · rw [he2, Complex.ofReal_re]; exact hr2
  · rw [norm, he0, he2, ← Complex.ofReal_div, Complex.ofReal_im]
  · rw [norm, he0, he2, ← Complex.ofReal_div, Complex.ofReal_re]
    exact div_pos hr0 hr2

/-- Witness for C10 at `n = 0`, `(lx, ly, lz) = (0, 0, 0)`. -/
theorem norms_real_and_positive_witness :
    (0 : ℤ) ≤ 0 ∧
      (((sph_norm 0).im = 0 ∧ 0 < (sph_norm 0).re) ∧
        ((cart_norm 0 0 0).im = 0 ∧ 0 < (cart_norm 0 0 0).re) ∧
        ((norm 0 0 0).im = 0 ∧ 0 < (norm 0 0 0).re)) :=
  ⟨le_refl 0, norms_real_and_positive 0 0 0 0 (by norm_num) (by norm_num)
    (by norm_num) (by norm_num)⟩

/-- C4: for every `l` (and either normalization), every entry of the
complex matrix built by `cart2sph_coeffs_for(l, real=true)` has exactly
zero imaginary part, the condition of the source's realness `assert`
holds, and the function returns the real-cast transpose — so the
assertion can never fire and no non-real value is ever truncated. -/
theorem cart2sph_coeffs_for_real_ok (l : ℕ) (normalized : Bool) :
    (∀ r c, ((C_pre l true normalized).entry r c).im = 0) ∧
      iscomplex_not_all (C_pre l true normalized) ∧
      cart2sph_coeffs_for l true normalized
        = .ok ((C_pre l true normalized).realPart.T) := by
  have him : ∀ r c, ((C_pre l true normalized).entry r c).im = 0 :=
    fun r c => C_pre_im_eq_zero l normalized r c
  have hassert : iscomplex_not_all (C_pre l true normalized) := by
    intro hall
    exact hall 0 (canonical_order_length_pos l) 0
      (by show 0 < 2 * l + 1; omega) (him 0 0)
  refine ⟨him, hassert, ?_⟩
  unfold cart2sph_coeffs_for
  dsimp only
  rw [if_pos rfl, if_pos hassert]

/-- C8: the `zero_small` thresholding is idempotent: a second application
with the same threshold changes nothing; entries with absolute value at
most the threshold become exactly `0`, larger entries are untouched. -/
theorem zeroSmall_idempotent (t : ℝ) (M : NDMatrix) :
    zeroSmall t (zeroSmall t M) = zeroSmall t M ∧
      ∀ r c, (Complex.abs (M.entry r c) ≤ t → (zeroSmall t M).entry r c = 0) ∧
        (t < Complex.abs (M.entry r c) → (zeroSmall t M).entry r c = M.entry r c) := by
  constructor
  · unfold zeroSmall
    dsimp only
    congr 1
    funext r c
    by_cases h : Complex.abs (M.entry r c) ≤ t
    · have h0 : (0 : ℝ) ≤ t := le_trans (Complex.abs.nonneg _) h
      rw [if_pos h, if_pos (by rw [map_zero]; exact h0)]
    · rw [if_neg h, if_neg h]
  · intro r c
    constructor
    · intro h
      unfold zeroSmall
      dsimp only
      rw [if_pos h]
    · intro h
      unfold zeroSmall
      dsimp only
      rw [if_neg (not_le.mpr h)]

/-- Witness for C8 at `t = 1` on a `1×1` zero matrix. -/
theorem zeroSmall_idempotent_witness :
    zeroSmall 1 (zeroSmall 1 ⟨1, 1, fun _ _ => 0⟩) = zeroSmall 1 ⟨1, 1, fun _ _ => 0⟩ ∧
      (zeroSmall 1 (⟨1, 1, fun _ _ => 0⟩ : NDMatrix)).entry 0 0 = 0 :=
  ⟨(zeroSmall_idempotent 1 ⟨1, 1, fun _ _ => 0⟩).1,
    ((zeroSmall_idempotent 1 ⟨1, 1, fun _ _ => 0⟩).2 0 0).1
      (by rw [show (NDMatrix.mk 1 1 fun _ _ => 0).entry 0 0 = 0 from rfl, map_zero]
          norm_num)⟩

lemma cart2sph_coeff_ok_inv {lx ly lz m : ℤ} {normalized : Bool} {c : ℂ}
    (h : cart2sph_coeff lx ly lz m normalized = .ok c) :
    cart2sph_coeff_core lx ly lz m normalized = c := by
  unfold cart2sph_coeff at h
  split_ifs at h with hcond
  exact Except.ok.inj h

/-- C2: for every row `r` of the matrix assembled by
`cart2sph_coeffs_for` (Cartesian triple `(lx, ly, lz)` of
`canonical_order l`) and every column `m ∈ [-l, l]`, the assembled
complex entry equals the specification's combination
`(coeff(m) + sign·coeff(-m)) / sqrt(sign·2)` (`sign = +1` if `m < 0`
else `-1`) for `m ≠ 0`, and the raw coefficient unchanged for `m = 0`. -/
theorem C_pre_entry_eq_spec_combined (l : ℕ) (normalized : Bool) (r : ℕ)
    (hr : r < (canonical_order l).length) (lx ly lz : ℕ)
    (ht : (canonical_order l).getD r (0, 0, 0) = (lx, ly, lz)) (m : ℤ)
    (hm1 : -(l : ℤ) ≤ m) (hm2 : m ≤ l) (cm cmm : ℂ)
    (h1 : cart2sph_coeff lx ly lz m normalized = .ok cm)
    (h2 : cart2sph_coeff lx ly lz (-m) normalized = .ok cmm) :
    (C_pre l true normalized).entry r (m + l).toNat = spec_combined cm cmm m := by
  have hc1 := cart2sph_coeff_ok_inv h1
  have hc2 := cart2sph_coeff_ok_inv h2
  unfold C_pre
  dsimp only
  rw [if_pos ⟨hr, by omega⟩, ht]
  dsimp only
  have hmm : (((m + (l : ℤ)).toNat : ℤ)) - l = m := by omega
  rw [hmm]
  unfold combined_coeff spec_combined
  by_cases hm0 : m = 0
  · subst hm0
    rw [if_neg (by simp), if_pos rfl]
    exact hc1
  · rw [if_pos ⟨rfl, hm0⟩, if_neg hm0]
    dsimp only
    rw [hc1, hc2]

/-- Witness for C2 at `l = 1`, row `0` (triple `(1,0,0)`), `m = 0`. -/
theorem C_pre_entry_eq_spec_combined_witness :
    (C_pre 1 true true).entry 0 ((0 : ℤ) + (1 : ℕ)).toNat
      = spec_combined (cart2sph_coeff_core 1 0 0 0 true)
          (cart2sph_coeff_core 1 0 0 0 true) 0 :=
  C_pre_entry_eq_spec_combined 1 true 0 (by rw [canonical_order_length]; norm_num)
    1 0 0 (by rfl) 0 (by norm_num) (by norm_num)
    (cart2sph_coeff_core 1 0 0 0 true) (cart2sph_coeff_core 1 0 0 0 true)
    (by unfold cart2sph_coeff; rw [if_pos (by norm_num)]; norm_num)
    (by unfold cart2sph_coeff; rw [if_pos (by norm_num)]; norm_num)

lemma k_sum_eq_exp (lx am s j : ℤ) :
    k_sum lx am s j = ∑ k ∈ Finset.range (j + 1).toNat,
      Complex.exp (Real.pi * Complex.I *
          ((s * (am - lx + 2 * (k : ℤ)) : ℤ) : ℂ) / 2) *
        ((binom j (k : ℤ) : ℚ) : ℂ) * ((binom am (lx - 2 * (k : ℤ)) : ℚ) : ℂ) := by
  unfold k_sum
  refine Finset.sum_congr rfl fun k _ => ?_
  rw [neg_one_cpow, mul_div_assoc]

/-- C1: on the claim's domain (`lx, ly, lz ≥ 0`, `|m| ≤ l`, `j` an
integer) the normalized coefficient computed by `cart2sph_coeff` equals
the specification's closed-form double sum `spec_coeff` (whose sign
factor is written via `exp(iπ·exponent)`). -/
theorem cart2sph_coeff_eq_spec_formula (lx ly lz : ℕ) (m : ℤ)
    (hm : |m| ≤ (lx : ℤ) + ly + lz) (hj : 2 ∣ ((lx : ℤ) + ly - |m|)) :
    cart2sph_coeff lx ly lz m true = .ok (spec_coeff lx ly lz m) := by
  obtain ⟨h1, h2⟩ := abs_le.mp hm
  unfold cart2sph_coeff
  rw [if_pos ⟨h1, h2⟩]
  congr 1
  unfold cart2sph_coeff_core spec_coeff
  rw [if_neg (by omega : ¬ ((lx : ℤ) + ly - |m|) % 2 ≠ 0)]
  dsimp only
  have hif2 : ∀ x y : ℂ, (if (true = true) then x else y) = x := fun x y => by simp
  rw [hif2, mul_one_div]
  congr 1
  congr 1
  refine Finset.sum_congr rfl fun i _ => ?_
  rw [i_fact, k_sum_eq_exp]

/-- Witness for C1 at `(lx, ly, lz, m) = (1, 0, 0, 1)`. -/
theorem cart2sph_coeff_eq_spec_formula_witness :
    |(1 : ℤ)| ≤ ((1 : ℕ) : ℤ) + ((0 : ℕ) : ℤ) + ((0 : ℕ) : ℤ) ∧
      (2 : ℤ) ∣ (((1 : ℕ) : ℤ) + ((0 : ℕ) : ℤ) - |(1 : ℤ)|) ∧
      cart2sph_coeff 1 0 0 1 true = .ok (spec_coeff 1 0 0 1) :=
  ⟨by norm_num, by norm_num,
    by have h := cart2sph_coeff_eq_spec_formula 1 0 0 1 (by norm_num) (by norm_num)
       rw [← h]
       norm_num⟩

/-- C5: `cart2sph_coeffs(l_max)` returns a mapping defined exactly on
`{0, ..., l_max}`, and the matrix for each `l` has shape
`(2l+1, (l+1)(l+2)/2)` (rows over `m = -l..l` after the transpose,
columns over the Cartesian triples of the canonical order). -/
theorem cart2sph_coeffs_keys_and_shapes (l_max : ℕ) (zero_small : Bool)
    (zero_thresh : ℝ) (normalized : Bool) :
    ∃ d, cart2sph_coeffs l_max zero_small zero_thresh true normalized = .ok d ∧
      (∀ l, (d l).isSome ↔ l ≤ l_max) ∧
      (∀ l, l ≤ l_max → ∃ M, d l = some M ∧
        M.rows = 2 * l + 1 ∧ M.cols = (l + 1) * (l + 2) / 2) := by
  have hok : ∀ l ≤ l_max, ∃ M, cart2sph_coeffs_for l true normalized = .ok M :=
    fun l _ => ⟨_, (cart2sph_coeffs_for_real_ok l normalized).2.2⟩
  unfold cart2sph_coeffs
  rw [if_pos hok]
  refine ⟨_, rfl, ?_, ?_⟩
  · intro l
    by_cases hl : l ≤ l_max
    · rw [if_pos hl, (cart2sph_coeffs_for_real_ok l normalized).2.2]
      simp [Except.toOption, hl]
    · rw [if_neg hl]
      simpa using hl
  · intro l hl
    rw [if_pos hl, (cart2sph_coeffs_for_real_ok l normalized).2.2]
    refine ⟨_, rfl, ?_, ?_⟩
    · cases zero_small <;> rfl
    · show (if zero_small = true
          then zeroSmall zero_thresh ((C_pre l true normalized).realPart.T)
          else (C_pre l true normalized).realPart.T).cols = (l + 1) * (l + 2) / 2
      cases zero_small
      · show (canonical_order l).length = (l + 1) * (l + 2) / 2
        exact canonical_order_length l
      · show (canonical_order l).length = (l + 1) * (l + 2) / 2
        exact canonical_order_length l

/-- Witness for C5: `l_max = 2` with thresholding; the keys reach `2`
and the `l = 2` matrix has shape `(5, 6)`. -/
theorem cart2sph_coeffs_keys_and_shapes_witness :
    ∃ d, cart2sph_coeffs 2 true ((1 : ℝ) / 10 ^ 14) true true = .ok d ∧
      ∃ M, d 2 = some M ∧ M.rows = 5 ∧ M.cols = 6 := by
  obtain ⟨d, hd, hkeys, hshape⟩ :=
    cart2sph_coeffs_keys_and_shapes 2 true ((1 : ℝ) / 10 ^ 14) true
  obtain ⟨M, hM, h5, h6⟩ := hshape 2 (by norm_num)
  exact ⟨d, hd, M, hM, by rw [h5], by rw [h6]⟩

end Cart2Sph
